import Mathlib

/-!
Verification of the creb terminal EPUB reader core: the chapter markup
processor (`src/epub/processor.rs`), the text-wrapping layout helper
(`src/reader/renderer.rs`), the relative resource-path resolver
(`src/epub/handler.rs`) and the navigation state machine (`src/app.rs`).

Rust strings are embedded as `List Char`; `str::len` (a UTF-8 byte count)
is embedded as `byteLen`.  Fallible operations (`str::split_at` panics on a
non-character-boundary index) return `Option`/`Except`.
-/

namespace Creb

/-- Number of UTF-8 bytes of a character, as counted by Rust `str::len`. -/
def utf8Len (c : Char) : Nat :=
  if c.toNat < 128 then 1
  else if c.toNat < 2048 then 2
  else if c.toNat < 65536 then 3
  else 4

/-- UTF-8 byte length of a string, i.e. Rust `str::len`. -/
def byteLen (s : List Char) : Nat :=
  (s.map utf8Len).sum

/-- Rust `char::is_whitespace`: the Unicode `White_Space` property,
used by `str::split_whitespace` and `str::trim`. -/
def rustIsWhitespace (c : Char) : Bool :=
  decide (c = ' ' ∨ (9 ≤ c.toNat ∧ c.toNat ≤ 13) ∨ c.toNat = 133 ∨ c.toNat = 160 ∨
    c.toNat = 5760 ∨ (8192 ≤ c.toNat ∧ c.toNat ≤ 8202) ∨ c.toNat = 8232 ∨
    c.toNat = 8233 ∨ c.toNat = 8239 ∨ c.toNat = 8287 ∨ c.toNat = 12288)

/-- Helper for `splitWhitespace`; `acc` holds the current token reversed. -/
def splitWsAux : List Char → List Char → List (List Char)
  | [], acc => if acc.isEmpty then [] else [acc.reverse]
  | c :: rest, acc =>
    if rustIsWhitespace c then
      if acc.isEmpty then splitWsAux rest [] else acc.reverse :: splitWsAux rest []
    else splitWsAux rest (c :: acc)

/-- Rust `str::split_whitespace`: split on runs of whitespace, no empty tokens. -/
def splitWhitespace (s : List Char) : List (List Char) :=
  splitWsAux s []

/-- Rust `str::trim`: remove leading and trailing whitespace. -/
def trimChars (s : List Char) : List Char :=
  ((s.dropWhile rustIsWhitespace).reverse.dropWhile rustIsWhitespace).reverse

/-- Rust `str::split_at mid`: split after `mid` UTF-8 bytes.  Returns `none`
where the Rust call panics: when `mid` is not on a character boundary or is
past the end of the string. -/
def splitAtByte : List Char → Nat → Option (List Char × List Char)
  | rest, 0 => some ([], rest)
  | [], _ + 1 => none
  | c :: cs, n + 1 =>
    if utf8Len c ≤ n + 1 then
      match splitAtByte cs (n + 1 - utf8Len c) with
      | none => none
      | some (a, b) => some (c :: a, b)
    else none

/-- The `while remaining.len() > width` loop of `wrap_text`
(src/reader/renderer.rs lines 252-256): repeatedly split `width`-byte chunks
off the front, returning the pushed chunks and the final remainder.
`fuel` is only a termination bound: the caller passes `remaining.length + 1`,
which suffices because every iteration consumes `width ≥ 1` bytes (hence at
least one character).  With `width = 0` the Rust loop never terminates;
running out of fuel models that (and the panic of `split_at`) as `none`. -/
def hardSplitGo (width : Nat) : Nat → List Char → Option (List (List Char) × List Char)
  | 0, _ => none
  | fuel + 1, remaining =>
    if width < byteLen remaining then
      match splitAtByte remaining width with
      | none => none
      | some (part, rest) =>
        match hardSplitGo width fuel rest with
        | none => none
        | some (chunks, rem) => some (part :: chunks, rem)
    else some ([], remaining)

/-- Wrapper for the hard-split loop with the canonical fuel. -/
def hardSplitLoop (width : Nat) (remaining : List Char) :
    Option (List (List Char) × List Char) :=
  hardSplitGo width (remaining.length + 1) remaining

/-- The `for word in text.split_whitespace()` loop of `wrap_text`
(src/reader/renderer.rs lines 228-265), one branch per source branch:
accept the candidate line, flush the current line, hard-split an over-long
word (only reached with an empty current line), or start a new line. -/
def wrapLoop (width : Nat) : List (List Char) → List (List Char) → List Char →
    Option (List (List Char) × List Char)
  | [], lines, current => some (lines, current)
  | word :: rest, lines, current =>
    let test := if current = [] then word else current ++ ' ' :: word
    if byteLen test ≤ width then
      wrapLoop width rest lines test
    else if current ≠ [] then
      wrapLoop width rest (lines ++ [current]) word
    else if width < byteLen word then
      match splitAtByte word width with
      | none => none
      | some (first, r) =>
        match hardSplitLoop width r with
        | none => none
        | some (chunks, rem) =>
          wrapLoop width rest (lines ++ first :: chunks)
            (if rem = [] then current else rem)
    else
      wrapLoop width rest lines word

/-- `wrap_text` from src/reader/renderer.rs lines 224-278: greedy word wrap
with hard-splitting of over-long tokens.  `none` models a panic of the
source function (`str::split_at` on a non-character boundary). -/
def wrap_text (text : List Char) (width : Nat) : Option (List (List Char)) :=
  match wrapLoop width (splitWhitespace text) [] [] with
  | none => none
  | some (lines, current) =>
    let lines2 := if current = [] then lines else lines ++ [current]
    some (if lines2 = [] then [[]] else lines2)

/-- `RenderableBlock` from src/epub/content.rs. -/
inductive RenderableBlock where
  | Paragraph (text : List Char)
  | Heading (level : Nat) (text : List Char)
  | Image (path : List Char)
  | ImagePlaceholder (desc : List Char)
deriving DecidableEq

/-- `RenderableChapter` from src/epub/content.rs. -/
structure RenderableChapter where
  blocks : List RenderableBlock
deriving DecidableEq

/-- Rust `str::find(pat)`: index of the first occurrence of `pat`
(in the `List Char` embedding, a character index; `find` and
`replace_range` below use the same indexing, so removing the region found
removes the same characters the source removes). -/
def findSub : List Char → List Char → Option Nat
  | s, pat =>
    if pat.isPrefixOf s then some 0
    else
      match s with
      | [] => none
      | _ :: t => (findSub t pat).map (· + 1)

/-- Rust `str::replace(pat, "")`: remove every (leftmost, non-overlapping)
occurrence of `pat`.  `fuel` is only a termination bound; `s.length + 1`
always suffices because each step consumes at least one character. -/
def removeAllGo : Nat → List Char → List Char → List Char
  | 0, s, _ => s
  | fuel + 1, s, pat =>
    if pat ≠ [] ∧ pat.isPrefixOf s then removeAllGo fuel (s.drop pat.length) pat
    else
      match s with
      | [] => []
      | c :: t => c :: removeAllGo fuel t pat

/-- Rust `str::replace(pat, "")` with the canonical fuel. -/
def removeAll (s pat : List Char) : List Char :=
  removeAllGo (s.length + 1) s pat

/-- The hard-coded XHTML namespace attribute removed by `preprocess_html`. -/
def xmlnsPat : List Char := "xmlns=\"http://www.w3.org/1999/xhtml\"".toList

/-- `preprocess_html` from src/epub/processor.rs lines 96-120: remove the
first `<!DOCTYPE ...>` region (up to the first following `>`) and every
verbatim XHTML namespace attribute.  The XML-declaration removal in the
source is commented out and therefore absent here as well. -/
def preprocess_html (content : List Char) : List Char :=
  let c1 :=
    match findSub content "<!DOCTYPE".toList with
    | some pos =>
      match findSub (content.drop pos) [ '>' ] with
      | some endPos => content.take pos ++ content.drop (pos + endPos + 1)
      | none => content
    | none => content
  removeAll c1 xmlnsPat

/-- `fallback_processing` from src/epub/processor.rs lines 122-130: the
whole (preprocessed, not tag-parsed) content as a single paragraph. -/
def fallback_processing (html_content : List Char) : RenderableChapter :=
  ⟨[RenderableBlock.Paragraph (preprocess_html html_content)]⟩

/-- One event of the external streaming XML parser (`xml::reader::EventReader`
of the xml-rs crate), as consumed by the `for event in parser` loop:
start tags and end tags carry the local tag name, character data carries its
text, `errEvt` is a parse error (`Err(e)`), and `other` stands for every
event the loop ignores (`StartDocument`, `EndDocument`, `Whitespace`,
comments, processing instructions, ...). -/
inductive XmlItem where
  | startTag (name : List Char)
  | endTag (name : List Char)
  | chars (text : List Char)
  | errEvt
  | other
deriving DecidableEq

/-- XML whitespace characters. -/
def isXmlWs (c : Char) : Bool :=
  c == ' ' || c == '\t' || c == '\n' || c == '\r'

/-- Characters that may continue a tag name in the event model. -/
def tagNameChar (c : Char) : Bool :=
  !(isXmlWs c || c == '>' || c == '/')

/-- Modelled from the spec: scanning to the end of a tag inside the external
streaming XML parser.  Skips double-quoted attribute values, reports whether
the character before the closing `>` was `/` (a self-closing tag), and
returns the rest of the input; `none` (end of input inside a tag) is a parse
error. -/
def scanTag : List Char → Bool → Bool → Option (Bool × List Char)
  | [], _, _ => none
  | c :: rest, true, _ => scanTag rest (!(c == '"')) false
  | c :: rest, false, lastSlash =>
    if c == '"' then scanTag rest true false
    else if c == '>' then some (lastSlash, rest)
    else scanTag rest false (c == '/')

/-- Local part of a qualified tag name (`name.local_name` in the source):
the segment after the last `:`. -/
def localName (n : List Char) : List Char :=
  ((n.splitOn ':').getLast?).getD n

/-- Modelled from the spec: the event stream of the external streaming XML
parser (xml-rs `EventReader`), which is not part of this repository.  Per
the spec (section 4.1) the structural parse is streaming and tag-aware and
"any parse error triggers an unconditional fallback"; per the spec scenarios
a sequence of sibling root elements parses fine.  The model emits start/end
tag events (self-closing tags emit both at once), character-data events for
text inside the root (whitespace-only runs are `Whitespace` events, i.e.
`other`), ignores `<!...>`/`<?...>` declarations, and reports an error for
mismatched or unclosed tags, text outside a root element, or an input with
no root element at all.  `fuel` is only a termination bound: each emitted
item consumes at least one character, so `length + 1` always suffices. -/
def xmlEventsAux : Nat → List Char → List (List Char) → Bool → List XmlItem
  | 0, _, _, _ => [XmlItem.errEvt]
  | fuel + 1, cs, stack, rootSeen =>
    match cs with
    | [] => if stack.isEmpty && rootSeen then [] else [XmlItem.errEvt]
    | '<' :: rest =>
      match rest with
      | '/' :: r2 =>
        let name := r2.takeWhile tagNameChar
        let r3 := r2.dropWhile tagNameChar
        match scanTag r3 false false with
        | none => [XmlItem.errEvt]
        | some (_, r4) =>
          match stack with
          | [] => [XmlItem.errEvt]
          | top :: stRest =>
            if top = name then XmlItem.endTag (localName name) :: xmlEventsAux fuel r4 stRest rootSeen
            else [XmlItem.errEvt]
      | '!' :: r2 =>
        match scanTag r2 false false with
        | none => [XmlItem.errEvt]
        | some (_, r4) => XmlItem.other :: xmlEventsAux fuel r4 stack rootSeen
      | '?' :: r2 =>
        match scanTag r2 false false with
        | none => [XmlItem.errEvt]
        | some (_, r4) => XmlItem.other :: xmlEventsAux fuel r4 stack rootSeen
      | _ =>
        let name := rest.takeWhile tagNameChar
        let r3 := rest.dropWhile tagNameChar
        if name.isEmpty then [XmlItem.errEvt]
        else
          match scanTag r3 false false with
          | none => [XmlItem.errEvt]
          | some (selfClose, r4) =>
            if selfClose then
              XmlItem.startTag (localName name) :: XmlItem.endTag (localName name) ::
                xmlEventsAux fuel r4 stack true
            else
              XmlItem.startTag (localName name) :: xmlEventsAux fuel r4 (name :: stack) true
    | c :: rest =>
      let run := c :: rest.takeWhile (fun d => !(d == '<'))
      let r2 := rest.dropWhile (fun d => !(d == '<'))
      if run.all isXmlWs then
        if stack.isEmpty then xmlEventsAux fuel r2 stack rootSeen
        else XmlItem.other :: xmlEventsAux fuel r2 stack rootSeen
      else if stack.isEmpty then [XmlItem.errEvt]
      else XmlItem.chars run :: xmlEventsAux fuel r2 stack rootSeen

/-- Modelled from the spec: event stream of a markup input (see
`xmlEventsAux`). -/
def xmlEvents (cs : List Char) : List XmlItem :=
  xmlEventsAux (cs.length + 1) cs [] false

/-- The `for event in parser` loop of `process_chapter_html`
(src/epub/processor.rs lines 19-86), with the accumulated text buffer
`cur` (`current_text`) and `lvl` (`heading_level`) threaded through.
Returns `none` when an error event is reached, which the source answers by
`return fallback_processing(html_content)`. -/
def runEvents : List XmlItem → List RenderableBlock → List Char → Nat →
    Option (List RenderableBlock)
  | [], blocks, _, _ => some blocks
  | XmlItem.startTag n :: rest, blocks, _cur, lvl =>
    if n = "h1".toList then runEvents rest blocks [] 1
    else if n = "h2".toList then runEvents rest blocks [] 2
    else if n = "h3".toList then runEvents rest blocks [] 3
    else if n = "h4".toList then runEvents rest blocks [] 4
    else if n = "h5".toList then runEvents rest blocks [] 5
    else if n = "h6".toList then runEvents rest blocks [] 6
    else if n = "p".toList then runEvents rest blocks [] lvl
    else runEvents rest blocks _cur lvl
  | XmlItem.endTag n :: rest, blocks, cur, lvl =>
    if n = "h1".toList ∨ n = "h2".toList ∨ n = "h3".toList ∨ n = "h4".toList ∨
        n = "h5".toList ∨ n = "h6".toList then
      runEvents rest
        (if trimChars cur = [] then blocks
         else blocks ++ [RenderableBlock.Heading lvl (trimChars cur)]) [] 0
    else if n = "p".toList then
      runEvents rest
        (if trimChars cur = [] then blocks
         else blocks ++ [RenderableBlock.Paragraph (trimChars cur)]) [] lvl
    else runEvents rest blocks cur lvl
  | XmlItem.chars t :: rest, blocks, cur, lvl => runEvents rest blocks (cur ++ t) lvl
  | XmlItem.errEvt :: _, _, _, _ => none
  | XmlItem.other :: rest, blocks, cur, lvl => runEvents rest blocks cur lvl

/-- `process_chapter_html` from src/epub/processor.rs lines 6-94: preprocess,
stream the XML events through the extraction loop, and fall back to a single
paragraph on a parse error or when no block was produced. -/
def process_chapter_html (html_content : List Char) : RenderableChapter :=
  let processed := preprocess_html html_content
  match runEvents (xmlEvents processed) [] [] 0 with
  | none => fallback_processing html_content
  | some blocks => if blocks = [] then fallback_processing html_content else ⟨blocks⟩

/-- Components of a relative (container-internal) path, as produced by Rust
`Path::components()`: split on `/`; empty segments and `.` segments are
normalized away, except a leading `.` which is kept.  `..` segments are NOT
removed (`Component::ParentDir` is an ordinary component). -/
def pathComponents (p : List Char) : List (List Char) :=
  match p.splitOn '/' with
  | [] => []
  | first :: rest =>
    let keep := fun (seg : List Char) => decide (seg ≠ [] ∧ seg ≠ [ '.' ])
    (if first = [ '.' ] then [first] else if keep first then [first] else []) ++
      rest.filter keep

/-- Join path components back with `/` (how `PathBuf` collected from
components prints for relative paths). -/
def joinComponents (segs : List (List Char)) : List Char :=
  List.intercalate [ '/' ] segs

/-- Rust `resolved_path.components().collect::<PathBuf>()`. -/
def normalizePath (p : List Char) : List Char :=
  joinComponents (pathComponents p)

/-- Rust `Path::parent()` followed by `unwrap_or(Path::new(""))`, for
relative paths: the path minus its final component. -/
def pathParent (p : List Char) : List Char :=
  joinComponents (pathComponents p).dropLast

/-- Rust `Path::join` for the embedded relative paths: an absolute
right-hand side replaces the base. -/
def pathJoin (base rel : List Char) : List Char :=
  match rel with
  | '/' :: _ => rel
  | _ => if base = [] then rel else base ++ '/' :: rel

/-- Rust `Path::file_name()`: the last component, or `None` when the path
terminates in `..` (or has no components). -/
def fileName (p : List Char) : Option (List Char) :=
  match (pathComponents p).getLast? with
  | some seg => if seg = "..".toList then none else some seg
  | none => none

/-- Rust `std::env::temp_dir().join(file_name)`, with the temporary
directory modelled as the constant `/tmp`. -/
def tempDirJoin (nm : List Char) : List Char :=
  "/tmp/".toList ++ nm

/-- Rust `Path::ends_with(child)`: the child's components are a suffix of
the path's components. -/
def pathEndsWith (p child : List Char) : Bool :=
  (pathComponents child).isSuffixOf (pathComponents p)

/-- The `EpubHandler` of src/epub/handler.rs.  The external `EpubDoc`
capability (the epub crate) is embedded by its observable interface:
`chapterData i` returns the raw content and package location of chapter `i`
(`none` models `set_current_page`/`get_current` failure or undecodable
content — the byte source cannot deliver the chapter), `resources` is the
resource table in iteration order mapping each key to its stored path (the
MIME component, unused by the embedded operations, is omitted), and
`resourceData p` tells whether `get_resource_by_path(p)` finds data.
Error messages are abbreviated (the claims never inspect them). -/
structure EpubHandler where
  chapterCount : Nat
  chapterData : Nat → Option (List Char × List Char)
  resources : List (List Char × List Char)
  resourceData : List Char → Bool
  currentChapterPath : Option (List Char)

/-- `EpubHandler::get_chapter_count` (src/epub/handler.rs lines 22-24). -/
def get_chapter_count (h : EpubHandler) : Nat :=
  h.chapterCount

/-- `EpubHandler::get_chapter_content_raw` (src/epub/handler.rs lines
26-50): bounds check, then fetch the chapter, remembering its package
location in `current_chapter_path`; the handler is returned alongside the
content because the source mutates `self`. -/
def get_chapter_content_raw (h : EpubHandler) (chapter_index : Nat) :
    Except (List Char) (EpubHandler × List Char) :=
  if h.chapterCount ≤ chapter_index then
    Except.error "chapter index out of bounds".toList
  else
    match h.chapterData chapter_index with
    | none => Except.error "failed to get chapter content".toList
    | some (content, path) =>
      Except.ok ({ h with currentChapterPath := some path }, content)

/-- `EpubHandler::resolve_relative_path` (src/epub/handler.rs lines 62-81):
join the reference to the current chapter's directory and collect the
components (which keeps `..` segments, see `pathComponents`). -/
def resolve_relative_path (h : EpubHandler) (relative_path : List Char) :
    Except (List Char) (List Char) :=
  match h.currentChapterPath with
  | some chapter_path =>
    Except.ok (normalizePath (pathJoin (pathParent chapter_path) relative_path))
  | none => Except.error "no current chapter path set".toList

/-- `EpubHandler::extract_resource` (src/epub/handler.rs lines 93-161):
direct lookup of the resolved key in the resource table, then a fallback
scan accepting the first entry whose stored path ends with the resolved key
or the original reference; on a match, materialize to the temp directory
under the final path segment (of the resolved key in the direct branch, of
the original reference in the fallback branch). -/
def extract_resource (h : EpubHandler) (resource_path : List Char) :
    Except (List Char) (List Char) :=
  let resolved :=
    match resolve_relative_path h resource_path with
    | Except.ok s => s
    | Except.error _ => resource_path
  match h.resources.lookup resolved with
  | some stored =>
    if h.resourceData stored then
      match fileName resolved with
      | some nm => Except.ok (tempDirJoin nm)
      | none => Except.error "invalid resource path".toList
    else Except.error "resource data not found".toList
  | none =>
    match h.resources.find? (fun kv =>
        pathEndsWith kv.2 resolved || pathEndsWith kv.2 resource_path) with
    | some kv =>
      if h.resourceData kv.2 then
        match fileName resource_path with
        | some nm => Except.ok (tempDirJoin nm)
        | none => Except.error "invalid resource path".toList
      else Except.error "resource data not found".toList
    | none => Except.error "resource not found".toList

/-- `AppState` from src/app.rs. -/
structure AppState where
  epub_handler : EpubHandler
  current_chapter_index : Nat
  renderable_chapter : RenderableChapter
  should_quit : Bool
  scroll_position : Nat
  image_paths : List (List Char)
  current_image_index : Nat
  extracted_images : List (List Char)

/-- `AppState::load_current_chapter` (src/app.rs lines 77-108).  The pair
result carries the `Result<(), String>` alongside the state, because the
source mutates `self` in place: on failure of `get_chapter_content_raw` the
`?` returns before any field is touched.  A failed per-image extraction
pushes the empty placeholder path, as in the source. -/
def load_current_chapter (s : AppState) : Except (List Char) Unit × AppState :=
  match get_chapter_content_raw s.epub_handler s.current_chapter_index with
  | Except.error e => (Except.error e, s)
  | Except.ok (h2, raw_html) =>
    let chapter := process_chapter_html raw_html
    let image_paths := chapter.blocks.filterMap (fun b =>
      match b with
      | RenderableBlock.Image path => some path
      | _ => none)
    let extracted := image_paths.map (fun p =>
      match extract_resource h2 p with
      | Except.ok q => q
      | Except.error _ => [])
    (Except.ok (),
      { s with epub_handler := h2, renderable_chapter := chapter,
               image_paths := image_paths, extracted_images := extracted })

/-- `AppState::next_chapter` (src/app.rs lines 57-65): the index is
incremented BEFORE the fallible load; the `?` on the load propagates the
error with the increment already applied, and the scroll/image resets only
happen after a successful load. -/
def next_chapter (s : AppState) : Except (List Char) Unit × AppState :=
  if s.current_chapter_index + 1 < get_chapter_count s.epub_handler then
    let s1 := { s with current_chapter_index := s.current_chapter_index + 1 }
    match load_current_chapter s1 with
    | (Except.error e, s2) => (Except.error e, s2)
    | (Except.ok _, s2) =>
      (Except.ok (), { s2 with scroll_position := 0, current_image_index := 0 })
  else (Except.ok (), s)

/-- `AppState::previous_chapter` (src/app.rs lines 67-75). -/
def previous_chapter (s : AppState) : Except (List Char) Unit × AppState :=
  if 0 < s.current_chapter_index then
    let s1 := { s with current_chapter_index := s.current_chapter_index - 1 }
    match load_current_chapter s1 with
    | (Except.error e, s2) => (Except.error e, s2)
    | (Except.ok _, s2) =>
      (Except.ok (), { s2 with scroll_position := 0, current_image_index := 0 })
  else (Except.ok (), s)

/-- Whether a block is an `Image` or `ImagePlaceholder` block. -/
def isImageBlock : RenderableBlock → Bool
  | RenderableBlock.Image _ => true
  | RenderableBlock.ImagePlaceholder _ => true
  | _ => false

/-- Whether a heading block's level lies in `1..6` (trivially true for
non-heading blocks). -/
def headingLevelInRange : RenderableBlock → Bool
  | RenderableBlock.Heading l _ => decide (1 ≤ l ∧ l ≤ 6)
  | _ => true

/-- Whether a heading block's level is at most 6 (trivially true for
non-heading blocks). -/
def headingLevelLeSix : RenderableBlock → Bool
  | RenderableBlock.Heading l _ => decide (l ≤ 6)
  | _ => true

/-- A two-chapter book whose second chapter's bytes cannot be delivered,
with some non-zero scroll and image positions in the app state. -/
def handlerC1 : EpubHandler :=
  ⟨2,
   fun i => if i = 0 then some ("<p>a</p>".toList, "text/ch1.xhtml".toList) else none,
   [], fun _ => false, none⟩

/-- App state sitting on chapter 0 of `handlerC1`. -/
def stateC1 : AppState :=
  ⟨handlerC1, 0, ⟨[RenderableBlock.Paragraph "a".toList]⟩, false, 5, [], 7, []⟩

/-! ## Shared lemmas -/

/-- An error event anywhere in the stream makes the extraction loop report
a parse failure, whatever state it is in. -/
theorem runEvents_err (evs : List XmlItem) : ∀ (blocks : List RenderableBlock)
    (cur : List Char) (lvl : Nat), XmlItem.errEvt ∈ evs →
    runEvents evs blocks cur lvl = none := by
  induction evs with
  | nil => intro blocks cur lvl h; simp at h
  | cons e rest ih =>
    intro blocks cur lvl h
    cases e with
    | startTag n =>
      have hr : XmlItem.errEvt ∈ rest := by
        cases h with
        | tail _ h2 => exact h2
      simp only [runEvents]
      split_ifs <;> exact ih _ _ _ hr
    | endTag n =>
      have hr : XmlItem.errEvt ∈ rest := by
        cases h with
        | tail _ h2 => exact h2
      simp only [runEvents]
      split_ifs <;> exact ih _ _ _ hr
    | chars t =>
      have hr : XmlItem.errEvt ∈ rest := by
        cases h with
        | tail _ h2 => exact h2
      simp only [runEvents]
      exact ih _ _ _ hr
    | errEvt => simp only [runEvents]
    | other =>
      have hr : XmlItem.errEvt ∈ rest := by
        cases h with
        | tail _ h2 => exact h2
      simp only [runEvents]
      exact ih _ _ _ hr

/-- The extraction loop only ever emits headings whose level field is the
running `heading_level`, which stays at most 6. -/
theorem runEvents_level_le (evs : List XmlItem) : ∀ (blocks : List RenderableBlock)
    (cur : List Char) (lvl : Nat) (out : List RenderableBlock),
    runEvents evs blocks cur lvl = some out →
    (∀ b ∈ blocks, headingLevelLeSix b = true) → lvl ≤ 6 →
    ∀ b ∈ out, headingLevelLeSix b = true := by
  induction evs with
  | nil =>
    intro blocks cur lvl out h hb _
    simp only [runEvents, Option.some.injEq] at h
    exact h ▸ hb
  | cons e rest ih =>
    intro blocks cur lvl out h hb hlvl
    cases e with
    | startTag n =>
      simp only [runEvents] at h
      split_ifs at h <;> exact ih _ _ _ _ h hb (by omega)
    | endTag n =>
      simp only [runEvents] at h
      split_ifs at h with h1 h2 h3 h4
      · exact ih _ _ _ _ h hb (by omega)
      · refine ih _ _ _ _ h (fun b hmem => ?_) (by omega)
        rcases List.mem_append.mp hmem with hm | hm
        · exact hb b hm
        · simp only [List.mem_singleton] at hm
          subst hm
          simp only [headingLevelLeSix, decide_eq_true_eq]
          exact hlvl
      · exact ih _ _ _ _ h hb hlvl
      · refine ih _ _ _ _ h (fun b hmem => ?_) hlvl
        rcases List.mem_append.mp hmem with hm | hm
        · exact hb b hm
        · simp only [List.mem_singleton] at hm
          subst hm
          rfl
      · exact ih _ _ _ _ h hb hlvl
    | chars t =>
      simp only [runEvents] at h
      exact ih _ _ _ _ h hb hlvl
    | errEvt =>
      simp only [runEvents] at h
      exact Option.noConfusion h
    | other =>
      simp only [runEvents] at h
      exact ih _ _ _ _ h hb hlvl

/-! ## Claims -/

/-- C1 (counterexample): on `stateC1` (chapter 0 of 2, scroll 5, image
index 7, chapter 1 unavailable), `next_chapter` returns the load error yet
leaves `current_chapter_index` at 1, not at its pre-call value 0 — the
transition is not atomic. -/
theorem next_chapter_atomicity_cex :
    (next_chapter stateC1).1 = Except.error "failed to get chapter content".toList ∧
    stateC1.current_chapter_index = 0 ∧
    (next_chapter stateC1).2.current_chapter_index = 1 ∧
    (next_chapter stateC1).2.scroll_position = 5 ∧
    (next_chapter stateC1).2.current_image_index = 7 := by
  refine ⟨rfl, rfl, rfl, rfl, rfl⟩

/-- C1 (amended): if the chapter load inside `next_chapter` fails (the
underlying byte source cannot deliver the next chapter's content), the call
returns the error and the state is exactly the pre-call state with
`current_chapter_index` already incremented by one; in particular
`scroll_position` and `current_image_index` keep their pre-call values, but
the chapter index does not. -/
theorem next_chapter_failure_increments (s : AppState)
    (htrans : s.current_chapter_index + 1 < get_chapter_count s.epub_handler)
    (hfail : s.epub_handler.chapterData (s.current_chapter_index + 1) = none) :
    next_chapter s =
      (Except.error "failed to get chapter content".toList,
       { s with current_chapter_index := s.current_chapter_index + 1 }) := by
  have hcount : ¬ s.epub_handler.chapterCount ≤ s.current_chapter_index + 1 := by
    simp only [get_chapter_count] at htrans
    omega
  simp only [next_chapter, load_current_chapter, get_chapter_content_raw, if_pos htrans]
  rw [if_neg hcount]
  simp only [hfail]

/-- C1 (witness): the amended statement instantiated on `stateC1`. -/
theorem next_chapter_failure_increments_witness :
    next_chapter stateC1 =
      (Except.error "failed to get chapter content".toList,
       { stateC1 with current_chapter_index := stateC1.current_chapter_index + 1 }) :=
  next_chapter_failure_increments stateC1 (by decide) (by decide)

/-- C3 (code bug): the structural parser never emits `Image` or
`ImagePlaceholder` blocks.  On an input containing an `<img src=.../>` start
tag, the whole chapter parses to a single paragraph (the image tag has no
structural effect and its attribute is never read), contradicting the
claimed image-block emission. -/
theorem img_tag_emits_no_image_block :
    process_chapter_html "<p>A<img src=\"../i.png\"/>B</p>".toList =
      ⟨[RenderableBlock.Paragraph "AB".toList]⟩ ∧
    ∀ b ∈ (process_chapter_html "<p>A<img src=\"../i.png\"/>B</p>".toList).blocks,
      isImageBlock b = false := by
  refine ⟨by decide, by decide⟩

/-- C4 (code bug): resolving `../images/cover.png` against a chapter at
`text/ch1.xhtml` yields the key `text/../images/cover.png` — the `..`
segment is NOT collapsed (Rust `components()` keeps `ParentDir`), so the
key differs from the claimed `images/cover.png`, and the subsequent
resource lookup against a table keyed `images/cover.png` finds nothing. -/
theorem resolve_relative_path_keeps_parent_marker :
    resolve_relative_path
        ⟨2, fun _ => none,
         [("images/cover.png".toList, "OEBPS/images/cover.png".toList)],
         fun _ => true, some "text/ch1.xhtml".toList⟩
        "../images/cover.png".toList =
      Except.ok "text/../images/cover.png".toList ∧
    "text/../images/cover.png".toList ≠ "images/cover.png".toList ∧
    extract_resource
        ⟨2, fun _ => none,
         [("images/cover.png".toList, "OEBPS/images/cover.png".toList)],
         fun _ => true, some "text/ch1.xhtml".toList⟩
        "../images/cover.png".toList =
      Except.error "resource not found".toList := by
  refine ⟨by rfl, by decide, by rfl⟩

/-- C5: for every markup input the processor returns at least one block;
a parse error (an error event in the stream) or an empty structural result
yields exactly the fallback — one paragraph holding the preprocessed raw
input — and the empty input takes that path with empty text. -/
theorem process_chapter_html_total (t : List Char) :
    (process_chapter_html t).blocks ≠ [] ∧
    ((XmlItem.errEvt ∈ xmlEvents (preprocess_html t) ∨
        runEvents (xmlEvents (preprocess_html t)) [] [] 0 = some []) →
      process_chapter_html t = fallback_processing t) ∧
    (t = [] → process_chapter_html t = ⟨[RenderableBlock.Paragraph []]⟩) := by
  refine ⟨?_, ?_, ?_⟩
  · simp only [process_chapter_html]
    cases hrun : runEvents (xmlEvents (preprocess_html t)) [] [] 0 with
    | none => simp [fallback_processing]
    | some blocks =>
      by_cases hb : blocks = [] <;> simp [hb, fallback_processing]
  · intro h
    simp only [process_chapter_html]
    cases hrun : runEvents (xmlEvents (preprocess_html t)) [] [] 0 with
    | none => rfl
    | some blocks =>
      rcases h with herr | hempty
      · rw [runEvents_err _ _ _ _ herr] at hrun
        cases hrun
      · rw [hempty] at hrun
        simp only [Option.some.injEq] at hrun
        simp [← hrun]
  · intro ht
    subst ht
    decide

/-- C5 (witness): the total-and-fallback statement instantiated on the
empty input. -/
theorem process_chapter_html_total_witness :
    (process_chapter_html ([] : List Char)).blocks ≠ [] ∧
    process_chapter_html ([] : List Char) = fallback_processing [] ∧
    process_chapter_html ([] : List Char) = ⟨[RenderableBlock.Paragraph []]⟩ :=
  ⟨(process_chapter_html_total []).1,
   (process_chapter_html_total []).2.1 (Or.inl (by decide)),
   (process_chapter_html_total []).2.2 rfl⟩

/-- C7 (code bug): `preprocess_html` does not remove the XML declaration
(that removal is commented out in the source): on an input starting with
`<?xml ...?>` followed by a DOCTYPE, the DOCTYPE is removed but the output
still contains `<?xml`. -/
theorem preprocess_html_keeps_xml_decl :
    preprocess_html "<?xml version=\"1.0\"?><!DOCTYPE html><p>a</p>".toList =
      "<?xml version=\"1.0\"?><p>a</p>".toList ∧
    (findSub (preprocess_html "<?xml version=\"1.0\"?><!DOCTYPE html><p>a</p>".toList)
      "<?xml".toList).isSome = true := by
  refine ⟨by decide, by decide⟩

/-- C8 (counterexample): on the nested-heading input
`<h1><h2>x</h2>y</h1>`, closing the inner `h2` resets `heading_level` to 0,
so the outer `h1`'s text is emitted as `Heading 0 "y"` — a heading level
outside `1..6`. -/
theorem heading_level_range_cex :
    process_chapter_html "<h1><h2>x</h2>y</h1>".toList =
      ⟨[RenderableBlock.Heading 2 "x".toList, RenderableBlock.Heading 0 "y".toList]⟩ ∧
    ¬ ∀ b ∈ (process_chapter_html "<h1><h2>x</h2>y</h1>".toList).blocks,
        headingLevelInRange b = true := by
  refine ⟨by decide, by decide⟩

/-- C8 (amended): every heading block the processor emits has level at most
6 (level 0 is possible for nested headings, so the claimed lower bound 1
does not hold, but the upper bound 6 does, for every input). -/
theorem heading_level_at_most_six (t : List Char) :
    ∀ b ∈ (process_chapter_html t).blocks, headingLevelLeSix b = true := by
  simp only [process_chapter_html]
  cases hrun : runEvents (xmlEvents (preprocess_html t)) [] [] 0 with
  | none =>
    simp [fallback_processing, headingLevelLeSix]
  | some blocks =>
    by_cases hb : blocks = []
    · simp [hb, fallback_processing, headingLevelLeSix]
    · simp only [hb, if_false]
      exact runEvents_level_le _ _ _ _ _ hrun (by simp) (by omega)

/-- C8 (witness): the level bound instantiated on a concrete heading. -/
theorem heading_level_at_most_six_witness :
    headingLevelLeSix (RenderableBlock.Heading 1 "x".toList) = true :=
  heading_level_at_most_six "<h1>x</h1>".toList
    (RenderableBlock.Heading 1 "x".toList) (by decide)

/-- C9: the four-block scenario — the exact markup parses to exactly
`Heading 1 "Chapter 1"`, `Paragraph "This is a paragraph."`,
`Heading 2 "Section 1"`, `Paragraph "Another paragraph."`, in order. -/
theorem scenario_four_blocks :
    process_chapter_html
        "<h1>Chapter 1</h1><p>This is a paragraph.</p><h2>Section 1</h2><p>Another paragraph.</p>".toList =
      ⟨[RenderableBlock.Heading 1 "Chapter 1".toList,
        RenderableBlock.Paragraph "This is a paragraph.".toList,
        RenderableBlock.Heading 2 "Section 1".toList,
        RenderableBlock.Paragraph "Another paragraph.".toList]⟩ := by
  decide

/-- C10 (code bug): `wrap_text` is not total — on the two-character input
`éé` (4 UTF-8 bytes) with width 3, the hard split calls `str::split_at(3)`
on a non-character boundary and panics (modelled as `none`). -/
theorem wrap_text_multibyte_faults :
    splitWhitespace "éé".toList = ["éé".toList] ∧
    byteLen "éé".toList = 4 ∧
    wrap_text "éé".toList 3 = none := by
  refine ⟨by decide, by decide, by decide⟩

/-- C2 (counterexample): `wrap("a bbbbbbbb", 5)` emits the line `bbbbbbbb`
of length 8 > 5: an over-long token reached while the current line is
non-empty is never hard-split. -/
theorem wrap_text_bound_cex :
    wrap_text "a bbbbbbbb".toList 5 = some ["a".toList, "bbbbbbbb".toList] ∧
    ¬ byteLen "bbbbbbbb".toList ≤ 5 := by
  refine ⟨by decide, by decide⟩

/-- C6 (counterexample): for the single whitespace-free token `éé`
(4 UTF-8 bytes > width 1), `wrap` does not return `ceil(4/1)` lines — it
panics in `str::split_at(1)` on a non-character boundary (modelled as
`none`). -/
theorem wrap_single_long_token_cex :
    splitWhitespace "éé".toList = ["éé".toList] ∧
    byteLen "éé".toList = 4 ∧
    wrap_text "éé".toList 1 = none := by
  refine ⟨by decide, by decide, by decide⟩

/-! ## Wrap lemmas -/

theorem byteLen_nil : byteLen [] = 0 := rfl

theorem byteLen_eq_length (l : List Char) (h : ∀ c ∈ l, utf8Len c = 1) :
    byteLen l = l.length := by
  induction l with
  | nil => rfl
  | cons c t ih =>
    simp only [byteLen, List.map_cons, List.sum_cons, List.length_cons]
    rw [h c (List.mem_cons_self c t)]
    have ht := ih (fun x hx => h x (List.mem_cons_of_mem _ hx))
    simp only [byteLen] at ht
    omega

theorem splitAtByte_ascii (l : List Char) : ∀ n, (∀ c ∈ l, utf8Len c = 1) →
    n ≤ l.length → splitAtByte l n = some (l.take n, l.drop n) := by
  induction l with
  | nil =>
    intro n _ hn
    have h0 : n = 0 := by simpa using hn
    subst h0
    rfl
  | cons c t ih =>
    intro n hall hn
    cases n with
    | zero => rfl
    | succ m =>
      have hc : utf8Len c = 1 := hall c (List.mem_cons_self c t)
      simp only [splitAtByte, hc]
      rw [if_pos (by omega)]
      have hm1 : m + 1 - 1 = m := by omega
      rw [hm1, ih m (fun x hx => hall x (List.mem_cons_of_mem _ hx))
        (by simp only [List.length_cons] at hn; omega)]
      rfl

theorem hardSplitGo_spec (w : Nat) (hw : 1 ≤ w) : ∀ (fuel : Nat) (l : List Char),
    (∀ c ∈ l, utf8Len c = 1) → l.length < fuel →
    ∃ chunks rem, hardSplitGo w fuel l = some (chunks, rem) ∧
      chunks.flatten ++ rem = l ∧
      (∀ ch ∈ chunks, ch.length = w ∧ byteLen ch = w) ∧
      rem.length ≤ w ∧ (l ≠ [] → rem ≠ []) ∧ (∀ c ∈ rem, utf8Len c = 1) := by
  intro fuel
  induction fuel with
  | zero => intro l _ h; omega
  | succ f ih =>
    intro l hall hlen
    have hbl : byteLen l = l.length := byteLen_eq_length l hall
    by_cases hgt : w < byteLen l
    · have hwle : w ≤ l.length := by omega
      simp only [hardSplitGo, if_pos hgt]
      rw [splitAtByte_ascii l w hall hwle]
      dsimp only
      have hdall : ∀ c ∈ l.drop w, utf8Len c = 1 :=
        fun c hc => hall c (List.mem_of_mem_drop hc)
      have hdlen : (l.drop w).length < f := by
        simp only [List.length_drop]
        omega
      obtain ⟨chunks, rem, heq, hjoin, hch, hremle, hne, hrall⟩ := ih (l.drop w) hdall hdlen
      rw [heq]
      dsimp only
      have htall : ∀ c ∈ l.take w, utf8Len c = 1 :=
        fun c hc => hall c (List.mem_of_mem_take hc)
      have htlen : (l.take w).length = w := by
        simp only [List.length_take]
        omega
      refine ⟨l.take w :: chunks, rem, rfl, ?_, ?_, hremle, ?_, hrall⟩
      · simp only [List.flatten_cons, List.append_assoc, hjoin, List.take_append_drop]
      · intro ch hm
        rcases List.mem_cons.mp hm with hm | hm
        · subst hm
          exact ⟨htlen, by rw [byteLen_eq_length _ htall, htlen]⟩
        · exact hch ch hm
      · intro _
        apply hne
        intro hdnil
        have hd0 := congrArg List.length hdnil
        simp only [List.length_drop, List.length_nil] at hd0
        omega
    · simp only [hardSplitGo, if_neg hgt]
      exact ⟨[], l, rfl, by simp, by simp, by omega, fun h => h, hall⟩

theorem splitWsAux_nows (s : List Char) : ∀ acc, (∀ c ∈ s, rustIsWhitespace c = false) →
    splitWsAux s acc = if acc.reverse ++ s = [] then [] else [acc.reverse ++ s] := by
  induction s with
  | nil =>
    intro acc _
    simp only [splitWsAux, List.append_nil]
    cases acc with
    | nil => rfl
    | cons a t => simp
  | cons c t ih =>
    intro acc hall
    have hc : rustIsWhitespace c = false := hall c (List.mem_cons_self c t)
    simp only [splitWsAux, hc, Bool.false_eq_true, if_false]
    rw [ih (c :: acc) (fun x hx => hall x (List.mem_cons_of_mem _ hx))]
    simp [List.reverse_cons, List.append_assoc]

theorem splitWhitespace_single (tok : List Char) (hne : tok ≠ [])
    (hnw : ∀ c ∈ tok, rustIsWhitespace c = false) :
    splitWhitespace tok = [tok] := by
  simp only [splitWhitespace]
  rw [splitWsAux_nows tok [] hnw]
  simp [hne]

theorem length_sum_const (w : Nat) (xs : List (List Char))
    (h : ∀ x ∈ xs, x.length = w) : (xs.map List.length).sum = xs.length * w := by
  induction xs with
  | nil => simp
  | cons a t ih =>
    simp only [List.map_cons, List.sum_cons, List.length_cons]
    rw [h a (List.mem_cons_self a t), ih (fun x hx => h x (List.mem_cons_of_mem _ hx))]
    ring

theorem ceil_div_helper (w k r : Nat) (hw : 1 ≤ w) (hr1 : 1 ≤ r) (hrw : r ≤ w) :
    (w + k * w + r + w - 1) / w = k + 2 := by
  have key : w + k * w + r + w - 1 = w * (k + 2) + (r - 1) := by
    have expand : w * (k + 2) = w + k * w + w := by ring
    omega
  rw [key, Nat.mul_add_div (by omega), Nat.div_eq_of_lt (by omega)]

theorem wrapLoop_cons_nil (w : Nat) (word : List Char) (rest : List (List Char))
    (lines : List (List Char)) :
    wrapLoop w (word :: rest) lines [] =
    (if byteLen word ≤ w then wrapLoop w rest lines word
     else if w < byteLen word then
       (match splitAtByte word w with
        | none => none
        | some (first, r) =>
          match hardSplitLoop w r with
          | none => none
          | some (chunks, rem) =>
            wrapLoop w rest (lines ++ first :: chunks) (if rem = [] then [] else rem))
     else wrapLoop w rest lines word) := rfl

theorem wrapLoop_cons_ne (w : Nat) (word : List Char) (rest : List (List Char))
    (lines : List (List Char)) (current : List Char) (h : current ≠ []) :
    wrapLoop w (word :: rest) lines current =
    (if byteLen (current ++ ' ' :: word) ≤ w then
       wrapLoop w rest lines (current ++ ' ' :: word)
     else wrapLoop w rest (lines ++ [current]) word) := by
  simp only [wrapLoop, if_neg h]
  rw [if_pos h]

theorem wrapLoop_all_le (w : Nat) (tokens : List (List Char)) :
    ∀ (lines : List (List Char)) (current : List Char),
    (∀ tok ∈ tokens, byteLen tok ≤ w) →
    (∀ l ∈ lines, byteLen l ≤ w) → byteLen current ≤ w →
    ∃ out cur, wrapLoop w tokens lines current = some (out, cur) ∧
      (∀ l ∈ out, byteLen l ≤ w) ∧ byteLen cur ≤ w := by
  induction tokens with
  | nil => intro lines current _ hl hc; exact ⟨lines, current, rfl, hl, hc⟩
  | cons word rest ih =>
    intro lines current htok hl hc
    have hword : byteLen word ≤ w := htok word (List.mem_cons_self word rest)
    have hrest : ∀ tok ∈ rest, byteLen tok ≤ w :=
      fun tok ht => htok tok (List.mem_cons_of_mem _ ht)
    by_cases hcur : current = []
    · subst hcur
      rw [wrapLoop_cons_nil, if_pos hword]
      exact ih _ _ hrest hl hword
    · rw [wrapLoop_cons_ne w word rest lines current hcur]
      by_cases htest : byteLen (current ++ ' ' :: word) ≤ w
      · rw [if_pos htest]
        exact ih _ _ hrest hl htest
      · rw [if_neg htest]
        refine ih _ _ hrest (fun l hm => ?_) hword
        rcases List.mem_append.mp hm with h | h
        · exact hl l h
        · simp only [List.mem_singleton] at h
          subst h
          exact hc

/-! ## Wrap claims -/

/-- C2 (amended): the universal line-length bound holds under the
hypothesis — forced by the counterexample — that every whitespace-delimited
token of the input fits the width (the source hard-splits an over-long
token only when the current line is empty); the concrete scenario
`wrap("This is a test", 5)` does produce at least two lines none exceeding
length 5. -/
theorem wrap_text_line_bound :
    (∀ (t : List Char) (w : Nat), 1 ≤ w →
      (∀ tok ∈ splitWhitespace t, byteLen tok ≤ w) →
      ∃ lines, wrap_text t w = some lines ∧ ∀ l ∈ lines, byteLen l ≤ w) ∧
    (∃ lines, wrap_text "This is a test".toList 5 = some lines ∧
      2 ≤ lines.length ∧ ∀ l ∈ lines, byteLen l ≤ 5) := by
  constructor
  · intro t w _hw htok
    obtain ⟨out, cur, heq, hout, hcur⟩ :=
      wrapLoop_all_le w (splitWhitespace t) [] [] htok (by simp) (by simp [byteLen])
    have hall2 : ∀ l ∈ (if cur = [] then out else out ++ [cur]), byteLen l ≤ w := by
      intro l hm
      by_cases hc0 : cur = []
      · rw [if_pos hc0] at hm
        exact hout l hm
      · rw [if_neg hc0] at hm
        rcases List.mem_append.mp hm with h | h
        · exact hout l h
        · simp only [List.mem_singleton] at h
          subst h
          exact hcur
    refine ⟨if (if cur = [] then out else out ++ [cur]) = [] then [[]]
        else (if cur = [] then out else out ++ [cur]), ?_, ?_⟩
    · simp only [wrap_text, heq]
    · by_cases hemp : (if cur = [] then out else out ++ [cur]) = []
      · rw [if_pos hemp]
        intro l hm
        simp only [List.mem_singleton] at hm
        subst hm
        simp [byteLen]
      · rw [if_neg hemp]
        exact hall2
  · exact ⟨["This".toList, "is a".toList, "test".toList], by decide, by decide, by decide⟩

/-- C2 (witness): the amended bound instantiated on `"ab cd"` at width 2. -/
theorem wrap_text_line_bound_witness :
    ∃ lines, wrap_text "ab cd".toList 2 = some lines ∧ ∀ l ∈ lines, byteLen l ≤ 2 :=
  wrap_text_line_bound.1 "ab cd".toList 2 (by decide) (by decide)

/-- C6 (amended): for a single whitespace-free over-long token of
single-byte (ASCII-range) characters — the restriction forced by the
counterexample, since a multi-byte token makes the source panic — `wrap`
returns exactly `ceil(len/w)` lines, all of length exactly `w` except
possibly the last, whose concatenation is the token. -/
theorem wrap_single_long_token (tok : List Char) (w : Nat) (hw : 1 ≤ w)
    (hascii : ∀ c ∈ tok, utf8Len c = 1)
    (hnw : ∀ c ∈ tok, rustIsWhitespace c = false)
    (hne : tok ≠ []) (hlen : w < byteLen tok) :
    ∃ front last, wrap_text tok w = some (front ++ [last]) ∧
      (front ++ [last]).length = (byteLen tok + w - 1) / w ∧
      (front ++ [last]).flatten = tok ∧
      (∀ l ∈ front, byteLen l = w) ∧ byteLen last ≤ w := by
  have hbl : byteLen tok = tok.length := byteLen_eq_length tok hascii
  have hwle : w ≤ tok.length := by omega
  obtain ⟨chunks, rem, heq, hjoin, hch, hremle, hrne, hrall⟩ :=
    hardSplitGo_spec w hw ((tok.drop w).length + 1) (tok.drop w)
      (fun c hc => hascii c (List.mem_of_mem_drop hc)) (by omega)
  have hdne : tok.drop w ≠ [] := by
    intro h0
    have hd0 := congrArg List.length h0
    simp only [List.length_drop, List.length_nil] at hd0
    omega
  have hrne2 : rem ≠ [] := hrne hdne
  have htall : ∀ c ∈ tok.take w, utf8Len c = 1 :=
    fun c hc => hascii c (List.mem_of_mem_take hc)
  have htlen : (tok.take w).length = w := by
    simp only [List.length_take]
    omega
  have hloop : wrap_text tok w = some ((tok.take w :: chunks) ++ [rem]) := by
    simp only [wrap_text, splitWhitespace_single tok hne hnw]
    rw [wrapLoop_cons_nil, if_neg (by omega : ¬ byteLen tok ≤ w), if_pos hlen,
      splitAtByte_ascii tok w hascii hwle]
    simp only [hardSplitLoop]
    rw [heq]
    dsimp only
    rw [if_neg hrne2]
    simp only [wrapLoop, List.nil_append]
    rw [if_neg hrne2]
    rw [if_neg (by simp : ¬ (tok.take w :: chunks) ++ [rem] = [])]
  have hjlen : (tok.drop w).length = chunks.length * w + rem.length := by
    have hlencong := congrArg List.length hjoin
    simp only [List.length_append, List.length_flatten] at hlencong
    rw [length_sum_const w chunks (fun x hx => (hch x hx).1)] at hlencong
    omega
  have hr1 : 1 ≤ rem.length := by
    cases rem with
    | nil => exact absurd rfl hrne2
    | cons a t => simp
  have htok_len : byteLen tok = w + chunks.length * w + rem.length := by
    have hdl : (tok.drop w).length = tok.length - w := List.length_drop w tok
    omega
  refine ⟨tok.take w :: chunks, rem, hloop, ?_, ?_, ?_, ?_⟩
  · rw [htok_len, ceil_div_helper w chunks.length rem.length hw hr1 hremle]
    simp
  · simp only [List.flatten_append, List.flatten_cons]
    simp only [List.flatten_nil, List.flatten, List.append_nil]
    rw [List.append_assoc, hjoin, List.take_append_drop]
  · intro l hm
    rcases List.mem_cons.mp hm with hm | hm
    · subst hm
      rw [byteLen_eq_length _ htall, htlen]
    · exact (hch l hm).2
  · rw [byteLen_eq_length rem hrall]
    exact hremle

/-- C6 (witness): the amended hard-split statement on token `abcde`,
width 2. -/
theorem wrap_single_long_token_witness :
    ∃ front last, wrap_text "abcde".toList 2 = some (front ++ [last]) ∧
      (front ++ [last]).length = (byteLen "abcde".toList + 2 - 1) / 2 ∧
      (front ++ [last]).flatten = "abcde".toList ∧
      (∀ l ∈ front, byteLen l = 2) ∧ byteLen last ≤ 2 :=
  wrap_single_long_token "abcde".toList 2 (by decide) (by decide) (by decide)
    (by decide) (by decide)

end Creb
